import Mathlib

/-!
Verification of the fuzzy respiratory-diagnosis expert system
(`src/fuzzy_expert_system.py`).

The engine is embedded shallowly:

* a symptom mapping (Python `dict` from symptom name to fuzzy value) is an
  association list `List (String × ℚ)` with first-match lookup;
* a rule is a diagnosis label together with a list of conditions, each
  condition a `(symptom name, desired presence)` pair;
* `evaluate_rule`, `infer_diseases` and `defuzzify_diseases` mirror the
  Python functions line by line; Python's `min(values)` over a non-empty
  list is `List.foldl min` seeded with the first element, Python's
  `max(items, key=lambda x: x[1])` keeps the earlier item on ties, and the
  dict update in `infer_diseases` either appends a fresh key at the end or
  replaces the stored value in place.

Fuzzy values are modelled as rationals.
-/

/-- A condition of a rule: symptom name and desired presence
(`True` = use the value, `False` = use `1 - value`). -/
abbrev Condition := String × Bool

/-- A fuzzy rule: a diagnosis label plus its condition list
(Python dict `{"disease": ..., "conditions": [...]}`). -/
structure Rule where
  disease : String
  conditions : List Condition
deriving Repr, DecidableEq

/-- First-match association-list lookup: the model of Python
`symptom_values.get(symptom, default)` and `d in disease_scores` /
`disease_scores[d]` on a dict with this insertion order. -/
def alookup (s : String) : List (String × ℚ) → Option ℚ
  | [] => none
  | p :: ps => if p.1 = s then some p.2 else alookup s ps

/-- `symptom_values.get(symptom, 0.0)`: look the symptom up, default 0. -/
def symGet (v : List (String × ℚ)) (s : String) : ℚ :=
  (alookup s v).getD 0

/-- The adjusted value of one condition: the raw value when presence is
desired, `1 - value` when absence is desired (lines 110-118 of the source). -/
def condValue (v : List (String × ℚ)) (c : Condition) : ℚ :=
  if c.2 then symGet v c.1 else 1 - symGet v c.1

/-- `evaluate_rule(rule, symptom_values)`: minimum of the adjusted condition
values, `0.0` for an empty condition list (line 120:
`min(values) if values else 0.0`). -/
def evaluate_rule (r : Rule) (v : List (String × ℚ)) : ℚ :=
  match r.conditions.map (condValue v) with
  | [] => 0
  | x :: xs => xs.foldl min x

/-- One step of the dict update in `infer_diseases` (lines 133-136): a fresh
diagnosis key is appended at the end, an existing one is replaced in place by
the max of the stored and the new score. -/
def updateMax (scores : List (String × ℚ)) (d : String) (s : ℚ) :
    List (String × ℚ) :=
  if (alookup d scores).isSome then
    scores.map (fun p => if p.1 = d then (p.1, max p.2 s) else p)
  else
    scores ++ [(d, s)]

/-- `infer_diseases(symptom_values, rules)`: fold every rule's score into the
diagnosis-score mapping with max-aggregation. -/
def infer_diseases (v : List (String × ℚ)) (rs : List Rule) :
    List (String × ℚ) :=
  rs.foldl (fun acc r => updateMax acc r.disease (evaluate_rule r v)) []

/-- One comparison step of Python `max(items, key=lambda x: x[1])`: the new
item replaces the current best only when its score is strictly greater, so
the earliest maximal item wins. -/
def pickMax (b p : String × ℚ) : String × ℚ :=
  if b.2 < p.2 then p else b

/-- `defuzzify_diseases(disease_scores)`: `(None, 0.0)` on an empty mapping,
otherwise the first entry attaining the maximal score. -/
def defuzzify_diseases (scores : List (String × ℚ)) : Option String × ℚ :=
  match scores with
  | [] => (none, 0)
  | x :: xs =>
    let best := xs.foldl pickMax x
    (some best.1, best.2)

/-- The hardcoded sample symptom values (lines 41-49 of the source). -/
def symptoms : List (String × ℚ) :=
  [("fever", 0.8),
   ("dry_cough", 0.4),
   ("wet_cough", 0.2),
   ("sore_throat", 0.7),
   ("nasal_congestion", 0.6),
   ("muscle_pain", 0.9),
   ("sneezing", 0.1)]

/-- The hardcoded sample rule base (lines 55-98 of the source). -/
def rules : List Rule :=
  [⟨"flu", [("fever", true), ("muscle_pain", true), ("dry_cough", true)]⟩,
   ⟨"cold", [("sneezing", true), ("nasal_congestion", true),
             ("wet_cough", true)]⟩,
   ⟨"pharyngitis", [("sore_throat", true), ("fever", true)]⟩,
   ⟨"cold", [("sore_throat", true), ("fever", false), ("sneezing", true)]⟩,
   ⟨"cold", [("dry_cough", true), ("nasal_congestion", true),
             ("muscle_pain", false), ("fever", false)]⟩]

/-- The maximum of a list of scores, `none` when the list is empty: the
specification-side aggregation used to state what `infer_diseases` computes. -/
def specMax : List ℚ → Option ℚ
  | [] => none
  | x :: xs => some (xs.foldl max x)

/-- Merge of optional scores by maximum, used to split `infer_diseases`
folds. -/
def omax : Option ℚ → Option ℚ → Option ℚ
  | none, o => o
  | some a, none => some a
  | some a, some b => some (max a b)

/-! ### Folded minima and maxima -/

theorem foldl_min_le_init (x : ℚ) (xs : List ℚ) : xs.foldl min x ≤ x := by
  induction xs generalizing x with
  | nil => simp
  | cons y ys ih => simpa using le_trans (ih (min x y)) (min_le_left x y)

theorem foldl_min_le_mem {y : ℚ} (x : ℚ) (xs : List ℚ) (hy : y ∈ xs) :
    xs.foldl min x ≤ y := by
  induction xs generalizing x with
  | nil => cases hy
  | cons z zs ih =>
    simp only [List.foldl_cons]
    rcases List.mem_cons.mp hy with h | h
    · subst h
      exact le_trans (foldl_min_le_init _ _) (min_le_right x y)
    · exact ih _ h

theorem foldl_min_mem (x : ℚ) (xs : List ℚ) : xs.foldl min x ∈ x :: xs := by
  induction xs generalizing x with
  | nil => simp
  | cons z zs ih =>
    simp only [List.foldl_cons]
    rcases List.mem_cons.mp (ih (min x z)) with h1 | h1
    · rcases min_choice x z with hc | hc
      · rw [h1, hc]; exact List.mem_cons_self _ _
      · rw [h1, hc]; exact List.mem_cons_of_mem _ (List.mem_cons_self _ _)
    · exact List.mem_cons_of_mem _ (List.mem_cons_of_mem _ h1)

theorem le_foldl_max_init (x : ℚ) (xs : List ℚ) : x ≤ xs.foldl max x := by
  induction xs generalizing x with
  | nil => simp
  | cons y ys ih => simpa using le_trans (le_max_left x y) (ih (max x y))

theorem le_foldl_max_mem {y : ℚ} (x : ℚ) (xs : List ℚ) (hy : y ∈ xs) :
    y ≤ xs.foldl max x := by
  induction xs generalizing x with
  | nil => cases hy
  | cons z zs ih =>
    simp only [List.foldl_cons]
    rcases List.mem_cons.mp hy with h | h
    · subst h
      exact le_trans (le_max_right x y) (le_foldl_max_init _ _)
    · exact ih _ h

theorem foldl_max_mem (x : ℚ) (xs : List ℚ) : xs.foldl max x ∈ x :: xs := by
  induction xs generalizing x with
  | nil => simp
  | cons z zs ih =>
    simp only [List.foldl_cons]
    rcases List.mem_cons.mp (ih (max x z)) with h1 | h1
    · rcases max_choice x z with hc | hc
      · rw [h1, hc]; exact List.mem_cons_self _ _
      · rw [h1, hc]; exact List.mem_cons_of_mem _ (List.mem_cons_self _ _)
    · exact List.mem_cons_of_mem _ (List.mem_cons_of_mem _ h1)

theorem foldl_max_absorb (xs : List ℚ) :
    ∀ a b : ℚ, xs.foldl max (max a b) = max a (xs.foldl max b) := by
  induction xs with
  | nil => intro a b; simp
  | cons y ys ih =>
    intro a b
    simp only [List.foldl_cons, max_assoc]
    exact ih a (max b y)

/-! ### Lookup lemmas -/

theorem mem_of_alookup_eq_some {s : String} {a : ℚ} :
    ∀ {v : List (String × ℚ)}, alookup s v = some a → (s, a) ∈ v := by
  intro v
  induction v with
  | nil => intro h; cases h
  | cons p ps ih =>
    intro h
    by_cases hp : p.1 = s
    · simp only [alookup, hp, if_pos, Option.some.injEq] at h
      exact List.mem_cons.mpr (Or.inl (by rw [← hp, ← h]))
    · simp only [alookup, hp, if_neg, not_false_iff] at h
      exact List.mem_cons_of_mem _ (ih h)

theorem alookup_isSome {s : String} :
    ∀ {v : List (String × ℚ)},
      (alookup s v).isSome = true ↔ s ∈ v.map Prod.fst := by
  intro v
  induction v with
  | nil => simp [alookup]
  | cons p ps ih =>
    by_cases hp : p.1 = s
    · simp [alookup, hp]
    · simp [alookup, hp, ih, Ne.symm hp]

theorem alookup_append_of_none {s : String} {l1 l2 : List (String × ℚ)}
    (h : alookup s l1 = none) : alookup s (l1 ++ l2) = alookup s l2 := by
  induction l1 with
  | nil => simp
  | cons p ps ih =>
    by_cases hp : p.1 = s
    · simp [alookup, hp] at h
    · simp only [alookup, hp, if_neg, not_false_iff] at h ⊢
      simpa [List.cons_append, alookup, hp] using ih h

theorem alookup_of_nodup {s : String} {a : ℚ} :
    ∀ {v : List (String × ℚ)}, (v.map Prod.fst).Nodup → (s, a) ∈ v →
      alookup s v = some a := by
  intro v
  induction v with
  | nil => intro _ hm; cases hm
  | cons p ps ih =>
    intro hnd hm
    rcases List.mem_cons.mp hm with h | h
    · rw [← h]
      simp [alookup]
    · have hhead : p.1 ∉ ps.map Prod.fst :=
        (List.nodup_cons.mp (by simpa using hnd)).1
      have hne : p.1 ≠ s := by
        intro hps
        exact hhead (hps ▸ List.mem_map.mpr ⟨(s, a), h, rfl⟩)
      simp only [alookup, hne, if_neg, not_false_iff]
      exact ih (List.nodup_cons.mp (by simpa using hnd)).2 h

/-! ### The dict update of `infer_diseases` -/

theorem alookup_map_max {d : String} {s : ℚ} :
    ∀ acc : List (String × ℚ),
      alookup d (acc.map fun p => if p.1 = d then (p.1, max p.2 s) else p) =
        (alookup d acc).map fun a => max a s := by
  intro acc
  induction acc with
  | nil => simp [alookup]
  | cons p ps ih =>
    by_cases hp : p.1 = d
    · simp [alookup, hp]
    · simp [alookup, hp, ih]

theorem omax_some_right (o : Option ℚ) (s : ℚ) :
    omax o (some s) = some ((o.map fun a => max a s).getD s) := by
  cases o <;> rfl

theorem updateMax_alookup_self (acc : List (String × ℚ)) (d : String) (s : ℚ) :
    alookup d (updateMax acc d s) = omax (alookup d acc) (some s) := by
  unfold updateMax
  by_cases h : (alookup d acc).isSome
  · rw [if_pos h, alookup_map_max]
    rcases Option.isSome_iff_exists.mp h with ⟨a, ha⟩
    rw [ha]
    rfl
  · have hn : alookup d acc = none := Option.not_isSome_iff_eq_none.mp h
    rw [if_neg h, alookup_append_of_none hn, hn]
    simp [alookup, omax]

theorem alookup_map_max_ne {e d : String} (h : e ≠ d) (s : ℚ) :
    ∀ acc : List (String × ℚ),
      alookup e (acc.map fun p => if p.1 = d then (p.1, max p.2 s) else p) =
        alookup e acc := by
  intro acc
  induction acc with
  | nil => rfl
  | cons p ps ih =>
    have hde : ¬ d = e := fun hde => h hde.symm
    by_cases hp : p.1 = d
    · have hpe : ¬ p.1 = e := by rw [hp]; exact hde
      simp [alookup, hp, hpe, ih, hde]
    · by_cases hpe : p.1 = e
      · simp [alookup, hp, hpe, h]
      · simp [alookup, hp, hpe, ih]

theorem alookup_append_single_ne {e d : String} (h : e ≠ d) (s : ℚ) :
    ∀ acc : List (String × ℚ),
      alookup e (acc ++ [(d, s)]) = alookup e acc := by
  intro acc
  induction acc with
  | nil =>
    have hde : ¬ d = e := fun hde => h hde.symm
    simp [alookup, hde]
  | cons p ps ih =>
    by_cases hpe : p.1 = e
    · simp [alookup, hpe]
    · simp [alookup, hpe, ih]

theorem updateMax_alookup_ne {e d : String} (acc : List (String × ℚ)) (s : ℚ)
    (h : e ≠ d) : alookup e (updateMax acc d s) = alookup e acc := by
  unfold updateMax
  by_cases hs : (alookup d acc).isSome
  · rw [if_pos hs, alookup_map_max_ne h]
  · rw [if_neg hs, alookup_append_single_ne h]

theorem omax_assoc (o1 o2 o3 : Option ℚ) :
    omax (omax o1 o2) o3 = omax o1 (omax o2 o3) := by
  cases o1 <;> cases o2 <;> cases o3 <;> simp [omax, max_assoc]

theorem specMax_cons (x : ℚ) (l : List ℚ) :
    specMax (x :: l) = omax (some x) (specMax l) := by
  cases l with
  | nil => rfl
  | cons y ys =>
    show some (List.foldl max (max x y) ys) = some (max x (List.foldl max y ys))
    rw [foldl_max_absorb]

theorem infer_fold_alookup (v : List (String × ℚ)) :
    ∀ (rs : List Rule) (acc : List (String × ℚ)) (d : String),
      alookup d
          (rs.foldl (fun acc r => updateMax acc r.disease (evaluate_rule r v))
            acc) =
        omax (alookup d acc)
          (specMax
            (((rs.filter fun r => r.disease = d).map
              fun r => evaluate_rule r v))) := by
  intro rs
  induction rs with
  | nil =>
    intro acc d
    cases h : alookup d acc <;> simp [specMax, omax, h]
  | cons r rs ih =>
    intro acc d
    simp only [List.foldl_cons]
    rw [ih]
    by_cases hr : r.disease = d
    · rw [hr, updateMax_alookup_self]
      have hfilter :
          ((r :: rs).filter fun q => q.disease = d) =
            r :: (rs.filter fun q => q.disease = d) := by
        simp [List.filter_cons, hr]
      rw [hfilter, List.map_cons, specMax_cons, ← omax_assoc]
    · rw [updateMax_alookup_ne _ _ (fun hdr => hr hdr.symm)]
      have hfilter :
          ((r :: rs).filter fun q => q.disease = d) =
            rs.filter fun q => q.disease = d := by
        simp [List.filter_cons, hr]
      rw [hfilter]

/-! ### Range preservation -/

theorem symGet_bounds {v : List (String × ℚ)}
    (h : ∀ p ∈ v, 0 ≤ p.2 ∧ p.2 ≤ 1) (s : String) :
    0 ≤ symGet v s ∧ symGet v s ≤ 1 := by
  unfold symGet
  cases ha : alookup s v with
  | none => norm_num
  | some a =>
    simpa using h (s, a) (mem_of_alookup_eq_some ha)

theorem condValue_bounds {v : List (String × ℚ)}
    (h : ∀ p ∈ v, 0 ≤ p.2 ∧ p.2 ≤ 1) (c : Condition) :
    0 ≤ condValue v c ∧ condValue v c ≤ 1 := by
  unfold condValue
  rcases symGet_bounds h c.1 with ⟨h0, h1⟩
  cases c.2 <;> simp <;> constructor <;> linarith

theorem evaluate_rule_bounds {v : List (String × ℚ)} (r : Rule)
    (h : ∀ p ∈ v, 0 ≤ p.2 ∧ p.2 ≤ 1) :
    0 ≤ evaluate_rule r v ∧ evaluate_rule r v ≤ 1 := by
  unfold evaluate_rule
  cases hm : r.conditions.map (condValue v) with
  | nil => norm_num
  | cons x xs =>
    have hall : ∀ y ∈ x :: xs, 0 ≤ y ∧ y ≤ 1 := by
      intro y hy
      have hy2 : y ∈ r.conditions.map (condValue v) := hm ▸ hy
      rcases List.mem_map.mp hy2 with ⟨c, _, hc⟩
      exact hc ▸ condValue_bounds h c
    exact hall _ (foldl_min_mem x xs)

theorem updateMax_mem_bounds {acc : List (String × ℚ)} {d : String} {s : ℚ}
    (hacc : ∀ p ∈ acc, 0 ≤ p.2 ∧ p.2 ≤ 1) (hs : 0 ≤ s ∧ s ≤ 1) :
    ∀ p ∈ updateMax acc d s, 0 ≤ p.2 ∧ p.2 ≤ 1 := by
  intro p hp
  unfold updateMax at hp
  by_cases hc : (alookup d acc).isSome
  · rw [if_pos hc] at hp
    rcases List.mem_map.mp hp with ⟨q, hq, hfq⟩
    by_cases hqd : q.1 = d
    · rw [← hfq]
      simp only [hqd, if_pos]
      exact ⟨le_max_of_le_left (hacc q hq).1, max_le (hacc q hq).2 hs.2⟩
    · rw [← hfq]
      simp only [hqd, if_neg, not_false_iff]
      exact hacc q hq
  · rw [if_neg hc] at hp
    rcases List.mem_append.mp hp with hq | hq
    · exact hacc p hq
    · have : p = (d, s) := by simpa using hq
      rw [this]
      exact hs

theorem infer_fold_bounds {v : List (String × ℚ)}
    (hv : ∀ p ∈ v, 0 ≤ p.2 ∧ p.2 ≤ 1) :
    ∀ (rs : List Rule) (acc : List (String × ℚ)),
      (∀ p ∈ acc, 0 ≤ p.2 ∧ p.2 ≤ 1) →
      ∀ p ∈ rs.foldl (fun acc r => updateMax acc r.disease (evaluate_rule r v))
          acc, 0 ≤ p.2 ∧ p.2 ≤ 1 := by
  intro rs
  induction rs with
  | nil => intro acc hacc p hp; exact hacc p hp
  | cons r rs ih =>
    intro acc hacc p hp
    simp only [List.foldl_cons] at hp
    exact ih _ (updateMax_mem_bounds hacc (evaluate_rule_bounds r hv)) p hp

/-! ### The arg-max selection -/

theorem pickMax_snd (b p : String × ℚ) : (pickMax b p).2 = max b.2 p.2 := by
  unfold pickMax
  by_cases hc : b.2 < p.2
  · rw [if_pos hc, max_eq_right (le_of_lt hc)]
  · rw [if_neg hc, max_eq_left (not_lt.mp hc)]

theorem foldl_pickMax_mem (b : String × ℚ) (xs : List (String × ℚ)) :
    xs.foldl pickMax b ∈ b :: xs := by
  induction xs generalizing b with
  | nil => simp
  | cons z zs ih =>
    simp only [List.foldl_cons]
    have hstep : pickMax b z = b ∨ pickMax b z = z := by
      unfold pickMax
      by_cases hc : b.2 < z.2
      · exact Or.inr (if_pos hc)
      · exact Or.inl (if_neg hc)
    rcases List.mem_cons.mp (ih (pickMax b z)) with h1 | h1
    · rcases hstep with hc | hc
      · rw [h1, hc]; exact List.mem_cons_self _ _
      · rw [h1, hc]; exact List.mem_cons_of_mem _ (List.mem_cons_self _ _)
    · exact List.mem_cons_of_mem _ (List.mem_cons_of_mem _ h1)

theorem snd_foldl_pickMax (b : String × ℚ) (xs : List (String × ℚ)) :
    (xs.foldl pickMax b).2 = (xs.map Prod.snd).foldl max b.2 := by
  induction xs generalizing b with
  | nil => rfl
  | cons z zs ih =>
    simp only [List.foldl_cons, List.map_cons]
    rw [ih, pickMax_snd]

theorem foldl_pickMax_id (b : String × ℚ) (xs : List (String × ℚ))
    (h : ∀ p ∈ xs, p.2 ≤ b.2) : xs.foldl pickMax b = b := by
  induction xs with
  | nil => rfl
  | cons z zs ih =>
    simp only [List.foldl_cons]
    have hz : pickMax b z = b := if_neg (not_lt.mpr (h z (List.mem_cons_self _ _)))
    rw [hz]
    exact ih fun p hp => h p (List.mem_cons_of_mem _ hp)

theorem foldl_pickMax_first {d : String} {s : ℚ} {l2 : List (String × ℚ)} :
    ∀ (l1 : List (String × ℚ)) (b : String × ℚ), b.2 < s →
      (∀ p ∈ l1, p.2 < s) → (∀ p ∈ l2, p.2 ≤ s) →
      List.foldl pickMax b (l1 ++ (d, s) :: l2) = (d, s) := by
  intro l1
  induction l1 with
  | nil =>
    intro b hb _ h2
    simp only [List.nil_append, List.foldl_cons]
    have hstep : pickMax b (d, s) = (d, s) := if_pos hb
    rw [hstep]
    exact foldl_pickMax_id _ _ h2
  | cons q l1 ih =>
    intro b hb h1 h2
    simp only [List.cons_append, List.foldl_cons]
    have hq : (pickMax b q).2 < s := by
      rw [pickMax_snd]
      exact max_lt hb (h1 q (List.mem_cons_self _ _))
    exact ih _ hq (fun p hp => h1 p (List.mem_cons_of_mem _ hp)) h2

/-! ### Key order of the inferred mapping -/

theorem keys_map_max (d : String) (s : ℚ) :
    ∀ acc : List (String × ℚ),
      ((acc.map fun p => if p.1 = d then (p.1, max p.2 s) else p).map
        Prod.fst) = acc.map Prod.fst := by
  intro acc
  induction acc with
  | nil => rfl
  | cons p ps ih =>
    by_cases hp : p.1 = d <;> simp [hp, ih]

theorem keys_updateMax (acc : List (String × ℚ)) (d : String) (s : ℚ) :
    (updateMax acc d s).map Prod.fst =
      if d ∈ acc.map Prod.fst then acc.map Prod.fst
      else acc.map Prod.fst ++ [d] := by
  unfold updateMax
  by_cases hs : (alookup d acc).isSome
  · rw [if_pos hs, keys_map_max, if_pos (alookup_isSome.mp hs)]
  · have hd : d ∉ acc.map Prod.fst := fun hm => hs (alookup_isSome.mpr hm)
    rw [if_neg hs, if_neg hd]
    simp

theorem infer_fold_keys (v : List (String × ℚ)) :
    ∀ (rs : List Rule) (acc : List (String × ℚ)),
      ((rs.foldl (fun acc r => updateMax acc r.disease (evaluate_rule r v))
          acc).map Prod.fst) =
        rs.foldl (fun ks r => if r.disease ∈ ks then ks else ks ++ [r.disease])
          (acc.map Prod.fst) := by
  intro rs
  induction rs with
  | nil => intro acc; rfl
  | cons r rs ih =>
    intro acc
    simp only [List.foldl_cons]
    rw [ih, keys_updateMax]

theorem foldl_min_le_all (x : ℚ) (xs : List ℚ) :
    ∀ y ∈ x :: xs, xs.foldl min x ≤ y := by
  intro y hy
  rcases List.mem_cons.mp hy with h | h
  · exact h ▸ foldl_min_le_init x xs
  · exact foldl_min_le_mem x xs h

theorem evaluate_rule_congr {v w : List (String × ℚ)} (r : Rule)
    (h : ∀ c ∈ r.conditions, condValue v c = condValue w c) :
    evaluate_rule r v = evaluate_rule r w := by
  unfold evaluate_rule
  rw [List.map_congr_left h]

/-! ### The claims -/

/-- C1: for every rule `r` with condition list `C` and symptom mapping `v`,
`evaluate_rule r v` is the minimum over `c ∈ C` of the adjusted value
(`v[c.symptom]` for present polarity, `1 - v[c.symptom]` for absent, a
missing symptom contributing `0`): it is a lower bound of the adjusted
values, it is attained by one of them when `C` is non-empty, and it is `0`
when `C` is empty. -/
theorem evaluate_rule_is_min (r : Rule) (v : List (String × ℚ)) :
    (r.conditions = [] → evaluate_rule r v = 0) ∧
    (∀ c ∈ r.conditions,
      evaluate_rule r v ≤
        (if c.2 then (alookup c.1 v).getD 0
         else 1 - (alookup c.1 v).getD 0)) ∧
    (r.conditions ≠ [] →
      ∃ c ∈ r.conditions,
        evaluate_rule r v =
          (if c.2 then (alookup c.1 v).getD 0
           else 1 - (alookup c.1 v).getD 0)) := by
  have hadj : ∀ c : Condition,
      (if c.2 then (alookup c.1 v).getD 0 else 1 - (alookup c.1 v).getD 0) =
        condValue v c := fun c => rfl
  refine ⟨?_, ?_, ?_⟩
  · intro h
    simp [evaluate_rule, h]
  · intro c hc
    rw [hadj]
    have hmem : condValue v c ∈ r.conditions.map (condValue v) :=
      List.mem_map_of_mem _ hc
    unfold evaluate_rule
    cases hm : r.conditions.map (condValue v) with
    | nil => rw [hm] at hmem; cases hmem
    | cons x xs =>
      rw [hm] at hmem
      exact foldl_min_le_all x xs _ hmem
  · intro hne
    unfold evaluate_rule
    cases hm : r.conditions.map (condValue v) with
    | nil => exact absurd (List.map_eq_nil_iff.mp hm) hne
    | cons x xs =>
      have hmem : xs.foldl min x ∈ r.conditions.map (condValue v) := by
        rw [hm]; exact foldl_min_mem x xs
      rcases List.mem_map.mp hmem with ⟨c, hc, hcv⟩
      exact ⟨c, hc, by rw [hadj, hcv]⟩

/-- C1 witness: the empty-condition rule scores `0`, and on a one-condition
rule the minimum is attained at that condition. -/
theorem evaluate_rule_is_min_witness :
    evaluate_rule ⟨"d", []⟩ symptoms = 0 ∧
    (∃ c ∈ [(("fever", true) : Condition)],
      evaluate_rule ⟨"flu", [("fever", true)]⟩ symptoms =
        (if c.2 then (alookup c.1 symptoms).getD 0
         else 1 - (alookup c.1 symptoms).getD 0)) :=
  ⟨(evaluate_rule_is_min ⟨"d", []⟩ symptoms).1 rfl,
   (evaluate_rule_is_min ⟨"flu", [("fever", true)]⟩ symptoms).2.2
     (by simp)⟩

/-- C2: for every symptom mapping and rule base, looking any diagnosis
label up in the mapping returned by `infer_diseases` gives exactly the
maximum of `evaluate_rule` over that label's rules (`none` precisely when
the label occurs in no rule, so the keys are exactly the labels of the rule
base); an empty rule base yields the empty mapping. -/
theorem infer_diseases_lookup_spec (v : List (String × ℚ)) (rs : List Rule) :
    (∀ d : String,
      alookup d (infer_diseases v rs) =
        specMax ((rs.filter fun r => r.disease = d).map
          fun r => evaluate_rule r v)) ∧
    infer_diseases v [] = [] := by
  constructor
  · intro d
    unfold infer_diseases
    rw [infer_fold_alookup]
    rfl
  · rfl

/-- C3: when every value of the symptom mapping lies in `[0, 1]`, every
rule score computed by `evaluate_rule` and every diagnosis score in the
mapping returned by `infer_diseases` lies in `[0, 1]`. -/
theorem engine_scores_bounded (v : List (String × ℚ)) (r : Rule)
    (rs : List Rule) (h : ∀ p ∈ v, 0 ≤ p.2 ∧ p.2 ≤ 1) :
    (0 ≤ evaluate_rule r v ∧ evaluate_rule r v ≤ 1) ∧
    ∀ p ∈ infer_diseases v rs, 0 ≤ p.2 ∧ p.2 ≤ 1 :=
  ⟨evaluate_rule_bounds r h, infer_fold_bounds h rs [] (by simp)⟩

/-- C3 witness: the sample symptom values all lie in `[0, 1]`, so the
sample rule scores and inferred diagnosis scores do too. -/
theorem engine_scores_bounded_witness :
    (0 ≤ evaluate_rule ⟨"pharyngitis",
        [("sore_throat", true), ("fever", true)]⟩ symptoms ∧
      evaluate_rule ⟨"pharyngitis",
        [("sore_throat", true), ("fever", true)]⟩ symptoms ≤ 1) ∧
    ∀ p ∈ infer_diseases symptoms rules, 0 ≤ p.2 ∧ p.2 ≤ 1 :=
  engine_scores_bounded symptoms
    ⟨"pharyngitis", [("sore_throat", true), ("fever", true)]⟩ rules
    (by
      intro p hp
      simp only [symptoms, List.mem_cons, List.not_mem_nil, or_false] at hp
      rcases hp with h | h | h | h | h | h | h <;> rw [h] <;> norm_num)

/-- C4: on a non-empty diagnosis score mapping, `defuzzify_diseases`
returns an entry of the mapping whose score is maximal (and equal to the
label's stored score when the keys are distinct); on a single-entry mapping
it returns that entry unchanged. -/
theorem defuzzify_attains_max (scores : List (String × ℚ))
    (h : scores ≠ []) :
    (∃ l s, defuzzify_diseases scores = (some l, s) ∧ (l, s) ∈ scores ∧
      (∀ p ∈ scores, p.2 ≤ s) ∧
      ((scores.map Prod.fst).Nodup → alookup l scores = some s)) ∧
    ∀ (a : String) (b : ℚ), defuzzify_diseases [(a, b)] = (some a, b) := by
  constructor
  · cases scores with
    | nil => exact absurd rfl h
    | cons x xs =>
      refine ⟨(xs.foldl pickMax x).1, (xs.foldl pickMax x).2, rfl, ?_, ?_, ?_⟩
      · simpa using foldl_pickMax_mem x xs
      · intro p hp
        rw [snd_foldl_pickMax]
        rcases List.mem_cons.mp hp with h1 | h1
        · exact h1 ▸ le_foldl_max_init x.2 (xs.map Prod.snd)
        · exact le_foldl_max_mem _ _ (List.mem_map_of_mem Prod.snd h1)
      · intro hnd
        exact alookup_of_nodup hnd (by simpa using foldl_pickMax_mem x xs)
  · intro a b; rfl

/-- C4 witness: on a concrete two-entry mapping the selection is an entry
attaining the maximal score. -/
theorem defuzzify_attains_max_witness :
    (∃ l s,
      defuzzify_diseases [("flu", (2:ℚ)/5), ("pharyngitis", (7:ℚ)/10)] =
        (some l, s) ∧
      (l, s) ∈ [("flu", (2:ℚ)/5), ("pharyngitis", (7:ℚ)/10)] ∧
      (∀ p ∈ [("flu", (2:ℚ)/5), ("pharyngitis", (7:ℚ)/10)], p.2 ≤ s) ∧
      (([("flu", (2:ℚ)/5), ("pharyngitis", (7:ℚ)/10)].map Prod.fst).Nodup →
        alookup l [("flu", (2:ℚ)/5), ("pharyngitis", (7:ℚ)/10)] = some s)) ∧
    ∀ (a : String) (b : ℚ), defuzzify_diseases [(a, b)] = (some a, b) :=
  defuzzify_attains_max [("flu", 2/5), ("pharyngitis", 7/10)] (by simp)

/-- C5: defuzzification of the empty diagnosis score mapping returns
`(none, 0.0)` (source lines 146-147). -/
theorem defuzzify_empty_mapping : defuzzify_diseases [] = (none, 0) := rfl

/-- C6: a symptom absent from the mapping is looked up as value `0`, a
condition on it evaluates to `0` (present polarity) or `1` (absent
polarity), and adding the explicit entry `(s, 0)` changes no rule score —
the embedding is a total function, with no failure branch for unknown
symptoms. -/
theorem missing_symptom_defaults_zero (r : Rule) (v : List (String × ℚ))
    (s : String) (h : alookup s v = none) :
    symGet v s = 0 ∧
    (∀ b : Bool, condValue v (s, b) = if b then 0 else 1) ∧
    evaluate_rule r ((s, 0) :: v) = evaluate_rule r v := by
  have hs0 : symGet v s = 0 := by unfold symGet; rw [h]; rfl
  refine ⟨hs0, ?_, ?_⟩
  · intro b
    cases b <;> simp [condValue, hs0]
  · apply evaluate_rule_congr
    intro c _
    unfold condValue symGet
    by_cases hc : c.1 = s
    · rw [hc]
      have h1 : alookup s ((s, 0) :: v) = some 0 := by simp [alookup]
      rw [h1, h]
      simp
    · have h2 : alookup c.1 ((s, 0) :: v) = alookup c.1 v := by
        have hsc : ¬ s = c.1 := fun hsc => hc hsc.symm
        simp [alookup, hsc]
      rw [h2]

/-- C6 witness: `"sneezing"` is absent from a one-symptom mapping: it is
read as `0`, and inserting it explicitly with value `0` leaves the rule
score unchanged. -/
theorem missing_symptom_defaults_zero_witness :
    symGet [("fever", (4:ℚ)/5)] "sneezing" = 0 ∧
    (∀ b : Bool,
      condValue [("fever", (4:ℚ)/5)] ("sneezing", b) = if b then 0 else 1) ∧
    evaluate_rule ⟨"cold", [("sneezing", true), ("fever", false)]⟩
        (("sneezing", 0) :: [("fever", (4:ℚ)/5)]) =
      evaluate_rule ⟨"cold", [("sneezing", true), ("fever", false)]⟩
        [("fever", (4:ℚ)/5)] :=
  missing_symptom_defaults_zero ⟨"cold", [("sneezing", true), ("fever", false)]⟩
    [("fever", 4/5)] "sneezing" (by simp [alookup])

/-- C7: the score of a rule does not depend on the order of its conditions:
any permutation of the condition list yields the same `evaluate_rule`
result. -/
theorem evaluate_rule_perm_invariant (r r2 : Rule) (v : List (String × ℚ))
    (h : r.conditions.Perm r2.conditions) :
    evaluate_rule r v = evaluate_rule r2 v := by
  have hmap : (r.conditions.map (condValue v)).Perm
      (r2.conditions.map (condValue v)) := h.map _
  unfold evaluate_rule
  cases hm1 : r.conditions.map (condValue v) with
  | nil =>
    cases hm2 : r2.conditions.map (condValue v) with
    | nil => rfl
    | cons y ys => rw [hm1, hm2] at hmap; simp at hmap
  | cons x xs =>
    cases hm2 : r2.conditions.map (condValue v) with
    | nil => rw [hm1, hm2] at hmap; simp at hmap
    | cons y ys =>
      rw [hm1, hm2] at hmap
      apply le_antisymm
      · exact foldl_min_le_all x xs _ (hmap.mem_iff.mpr (foldl_min_mem y ys))
      · exact foldl_min_le_all y ys _ (hmap.mem_iff.mp (foldl_min_mem x xs))

/-- C7 witness: swapping the two conditions of a concrete rule leaves its
score on the sample symptoms unchanged. -/
theorem evaluate_rule_perm_invariant_witness :
    evaluate_rule ⟨"cold", [("sore_throat", true), ("fever", false)]⟩
        symptoms =
      evaluate_rule ⟨"cold", [("fever", false), ("sore_throat", true)]⟩
        symptoms :=
  evaluate_rule_perm_invariant _ _ symptoms
    (List.Perm.swap ("fever", false) ("sore_throat", true) [])

/-- C8: with an out-of-range symptom value (here `2 > 1`) and an
absent-polarity condition on that symptom, `evaluate_rule` uses the value
unclamped and returns a negative score. -/
theorem out_of_range_goes_negative :
    ∃ (v : List (String × ℚ)) (r : Rule) (p : String × ℚ),
      p ∈ v ∧ 1 < p.2 ∧ (∃ c ∈ r.conditions, c.2 = false) ∧
      evaluate_rule r v < 0 := by
  refine ⟨[("s", 2)], ⟨"d", [("s", false)]⟩, ("s", 2), ?_, ?_, ?_, ?_⟩
  · simp
  · norm_num
  · exact ⟨("s", false), by simp, rfl⟩
  · norm_num [evaluate_rule, condValue, symGet, alookup]

set_option maxHeartbeats 1000000 in
/-- C9: on the hardcoded sample symptom values and the five-rule sample
rule base, inference yields exactly the scores flu `0.4`, cold `0.1`,
pharyngitis `0.7` (in first-appearance order), and defuzzification selects
pharyngitis with score `0.7`. -/
theorem sample_inference_matches :
    infer_diseases symptoms rules =
      [("flu", 0.4), ("cold", 0.1), ("pharyngitis", 0.7)] ∧
    defuzzify_diseases (infer_diseases symptoms rules) =
      (some "pharyngitis", 0.7) := by
  have h1 : infer_diseases symptoms rules =
      [("flu", 0.4), ("cold", 0.1), ("pharyngitis", 0.7)] := by
    simp +decide [infer_diseases, updateMax, evaluate_rule, condValue,
      symGet, alookup, symptoms, rules]
    norm_num
  refine ⟨h1, ?_⟩
  rw [h1]
  simp +decide [defuzzify_diseases, pickMax]
  norm_num

/-- C10: when several entries of a score mapping are maximal, the selection
returns the one appearing first in insertion order (every earlier entry has
a strictly smaller score, every later entry a smaller-or-equal one); and
the key order of a mapping produced by `infer_diseases` is the order of
first appearance of each diagnosis label in the rule base. -/
theorem tie_break_first_entry :
    (∀ (l1 l2 : List (String × ℚ)) (d : String) (s : ℚ),
      (∀ p ∈ l1, p.2 < s) → (∀ p ∈ l2, p.2 ≤ s) →
      defuzzify_diseases (l1 ++ (d, s) :: l2) = (some d, s)) ∧
    (∀ (v : List (String × ℚ)) (rs : List Rule),
      (infer_diseases v rs).map Prod.fst =
        rs.foldl
          (fun ks r => if r.disease ∈ ks then ks else ks ++ [r.disease])
          []) := by
  constructor
  · intro l1 l2 d s h1 h2
    cases l1 with
    | nil =>
      show defuzzify_diseases ((d, s) :: l2) = (some d, s)
      have hb : l2.foldl pickMax (d, s) = (d, s) := foldl_pickMax_id _ _ h2
      simp [defuzzify_diseases, hb]
    | cons b l1 =>
      show defuzzify_diseases (b :: (l1 ++ (d, s) :: l2)) = (some d, s)
      have hb : (l1 ++ (d, s) :: l2).foldl pickMax b = (d, s) :=
        foldl_pickMax_first l1 b (h1 b (List.mem_cons_self _ _))
          (fun p hp => h1 p (List.mem_cons_of_mem _ hp)) h2
      simp [defuzzify_diseases, hb]
  · intro v rs
    unfold infer_diseases
    rw [infer_fold_keys]
    rfl

/-- C10 witness: on a mapping with two entries tied at the maximal score,
the first entry wins. -/
theorem tie_break_first_entry_witness :
    defuzzify_diseases [("flu", (1:ℚ)/2), ("cold", (1:ℚ)/2)] =
      (some "flu", 1/2) :=
  tie_break_first_entry.1 [] [("cold", 1/2)] "flu" (1/2)
    (by simp) (by intro p hp; simp at hp; rw [hp]; norm_num)
